import Mathlib

/-!
Shallow embedding of the furigana engine of obsidian-autofurigana.

Text is modelled as `List Char`; every character that matters to the program
(the Japanese blocks, brackets, pipes, backticks) is a single UTF-16 code
unit, so list indices coincide with the JavaScript string offsets used by
the source.

The two external collaborators are parameters throughout:
  * `hiraF : List Char → List Char` models `wanakana.toHiragana`
    (an external library; the engine only pipes strings through it);
  * `tok : Option (List Char → List KToken)` models the kuromoji tokenizer
    handle returned by `getTokenizer()` (`none` = not initialized yet).
-/

/- ------------------------------------------------------------------ -/
/- Script classifier (furiganaUtils.ts: KANJI_RE, KANA_RE; regex.ts)  -/
/- ------------------------------------------------------------------ -/

/-- Source `KANJI_RE = /[㐀-䶿一-鿿豈-﫿]/` membership of one char. -/
def isKanjiChar (c : Char) : Bool :=
  (0x3400 ≤ c.toNat && c.toNat ≤ 0x4DBF) ||
  (0x4E00 ≤ c.toNat && c.toNat ≤ 0x9FFF) ||
  (0xF900 ≤ c.toNat && c.toNat ≤ 0xFAFF)

/-- Source `hasKanji(s) = KANJI_RE.test(s)` — some character of the string is a kanji. -/
def hasKanji (s : List Char) : Bool := s.any isKanjiChar

/-- Source `KANA_RE = /[぀-ヿー]/` membership of one char (`isKana` in the source;
the prolonged sound mark U+30FC already lies inside the range, kept for fidelity). -/
def isKana (c : Char) : Bool :=
  (0x3040 ≤ c.toNat && c.toNat ≤ 0x30FF) || c.toNat = 0x30FC

/-- Character class of `REGEX_AUTOMATIC` in regex.ts:
`[぀-ゟ゠-ヿ㐀-䶿一-鿿豈-﫿ー]`. -/
def isAutoChar (c : Char) : Bool :=
  (0x3040 ≤ c.toNat && c.toNat ≤ 0x309F) ||
  (0x30A0 ≤ c.toNat && c.toNat ≤ 0x30FF) ||
  (0x3400 ≤ c.toNat && c.toNat ≤ 0x4DBF) ||
  (0x4E00 ≤ c.toNat && c.toNat ≤ 0x9FFF) ||
  (0xF900 ≤ c.toNat && c.toNat ≤ 0xFAFF) ||
  c.toNat = 0x30FC

/- ------------------------------------------------------------------ -/
/- JavaScript string helpers over List Char                            -/
/- ------------------------------------------------------------------ -/

/-- JavaScript `s.startsWith(p)` on UTF-16 code-unit lists. -/
def startsWithL : List Char → List Char → Bool
  | _, [] => true
  | [], _ :: _ => false
  | c :: cs, d :: ds => c == d && startsWithL cs ds

/-- JavaScript `s.endsWith(p)` on UTF-16 code-unit lists. -/
def endsWithL (s p : List Char) : Bool :=
  s.drop (s.length - p.length) == p && decide (p.length ≤ s.length)

/-- JavaScript `s.split('|')` (semantics: `"".split('|') = [""]`, a leading
pipe yields a leading empty element). -/
def splitPipe : List Char → List (List Char)
  | [] => [[]]
  | c :: cs =>
    if c = '|' then [] :: splitPipe cs
    else
      match splitPipe cs with
      | [] => [[c]]
      | x :: xs => (c :: x) :: xs

/-- Whitespace for `String.prototype.trim` (space, tab, CR, LF, FF, VT,
NBSP, ideographic space, BOM — the code points that occur in practice). -/
def isJsSpace (c : Char) : Bool :=
  c = ' ' || c = '\t' || c = '\r' || c = '\n' ||
  c.toNat = 0x0B || c.toNat = 0x0C || c.toNat = 0xA0 ||
  c.toNat = 0x3000 || c.toNat = 0xFEFF

/-- JavaScript `s.trim()`. -/
def jsTrim (s : List Char) : List Char :=
  ((s.dropWhile isJsSpace).reverse.dropWhile isJsSpace).reverse

/- ------------------------------------------------------------------ -/
/- Okurigana splitter (furiganaUtils.ts: splitOkurigana)               -/
/- ------------------------------------------------------------------ -/

/-- Result record of `splitOkurigana` (the source returns
`{ base, baseReading, prefix: {base, reading}, suffix: {base, reading} }`;
the nested objects are flattened, `pfx`/`sfx` because Lean reserves the
notation keywords). -/
structure OkuSplit where
  base : List Char
  baseReading : List Char
  pfxBase : List Char
  pfxReading : List Char
  sfxBase : List Char
  sfxReading : List Char
deriving DecidableEq, Repr

/-- State returned by the two consumption loops: collected base chars,
collected reading, remaining surface, remaining reading. -/
structure ScanState where
  b : List Char
  rd : List Char
  rest : List Char
  rrest : List Char
deriving DecidableEq, Repr

/-- The leading loop of `splitOkurigana`: collect leading kana whose
`hira(ch)` form starts the remaining reading, stripping the reading. -/
def okuPfx (hiraF : List Char → List Char) : List Char → List Char → ScanState
  | [], r => ⟨[], [], [], r⟩
  | c :: cs, r =>
    if isKana c then
      let h := hiraF [c]
      if startsWithL r h then
        let s := okuPfx hiraF cs (r.drop h.length)
        ⟨c :: s.b, h ++ s.rd, s.rest, s.rrest⟩
      else ⟨[], [], c :: cs, r⟩
    else ⟨[], [], c :: cs, r⟩

/-- The trailing loop of `splitOkurigana`, expressed on the reversed
remaining surface (the source walks index `j` down from the end while
`j >= i`, which is exactly a walk over the reversed remainder): collect
trailing kana whose `hira(ch)` form ends the remaining reading, stripping
the reading from its end.  `b`/`rd` come out in left-to-right order;
`rest` is the untouched (still reversed) part. -/
def okuSfx (hiraF : List Char → List Char) : List Char → List Char → ScanState
  | [], r => ⟨[], [], [], r⟩
  | c :: cs, r =>
    if isKana c then
      let h := hiraF [c]
      if endsWithL r h then
        let s := okuSfx hiraF cs (r.take (r.length - h.length))
        ⟨s.b ++ [c], s.rd ++ h, s.rest, s.rrest⟩
      else ⟨[], [], c :: cs, r⟩
    else ⟨[], [], c :: cs, r⟩

/-- Source `splitOkurigana(surface, readingHira)` from furiganaUtils.ts. -/
def splitOkurigana (hiraF : List Char → List Char)
    (surface readingHira : List Char) : OkuSplit :=
  let p := okuPfx hiraF surface readingHira
  let s := okuSfx hiraF p.rest.reverse p.rrest
  { base := s.rest.reverse
    baseReading := s.rrest
    pfxBase := p.b
    pfxReading := p.rd
    sfxBase := s.b
    sfxReading := s.rd }

/- ------------------------------------------------------------------ -/
/- Segment builder (furiganaUtils.ts: getFuriganaSegmentsSync)         -/
/- ------------------------------------------------------------------ -/

/-- Kuromoji token subset used by the source (`surface_form`, optional
`reading`; `none` models both `undefined` and `null`). -/
structure KToken where
  surface : List Char
  reading : Option (List Char)
deriving DecidableEq, Repr

/-- Source `(t.reading && t.reading !== '*') ? String(t.reading) : surface` —
JavaScript truthiness makes the empty string fall back to the surface. -/
def readingRaw (t : KToken) : List Char :=
  match t.reading with
  | some r => if r ≠ [] ∧ r ≠ ['*'] then r else t.surface
  | none => t.surface

/-- One iteration of the token loop of `getFuriganaSegmentsSync`: the pair
of arrays grows in lockstep exactly as the source pushes. -/
def segStep (hiraF : List Char → List Char)
    (acc : List (List Char) × List (List Char)) (t : KToken) :
    List (List Char) × List (List Char) :=
  let surface := t.surface
  if surface = [] then acc
  else
    let reading := hiraF (readingRaw t)
    if hasKanji surface = false then (acc.1 ++ [surface], acc.2 ++ [reading])
    else
      let sp := splitOkurigana hiraF surface reading
      let acc1 := if sp.pfxBase ≠ [] then
          (acc.1 ++ [sp.pfxBase], acc.2 ++ [sp.pfxReading]) else acc
      let acc2 := if sp.base ≠ [] then
          (acc1.1 ++ [sp.base],
           acc1.2 ++ [if sp.baseReading ≠ [] then sp.baseReading else reading])
        else acc1
      if sp.sfxBase ≠ [] then
        (acc2.1 ++ [sp.sfxBase], acc2.2 ++ [sp.sfxReading]) else acc2

/-- Source `getFuriganaSegmentsSync` from furiganaUtils.ts.  A segment is the pair
(kanji chunks, furi chunks). -/
def getFuriganaSegmentsSync (hiraF : List Char → List Char)
    (tok : Option (List Char → List KToken)) (jp : List Char) :
    List (List (List Char) × List (List Char)) :=
  if jp = [] then [([], [])]
  else
    let tokens := match tok with
      | some tk => tk jp
      | none => [⟨jp, none⟩]
    let out := tokens.foldl (segStep hiraF) ([], [])
    if out.1 = [] then [([jp], [hiraF jp])] else [(out.1, out.2)]

/- ------------------------------------------------------------------ -/
/- Regex matchers (regex.ts)                                           -/
/- ------------------------------------------------------------------ -/

/-- Length of the maximal leading run of characters satisfying `p`
(the greedy `[...]+` munch of the regexes; all the character classes
involved exclude their own delimiters, so greedy matching never needs
to backtrack). -/
def takeClassLen (p : Char → Bool) : List Char → Nat
  | [] => 0
  | c :: cs => if p c then takeClassLen p cs + 1 else 0

/-- Character class of the curly base/reading chunks: `[^{}|\r\n]`. -/
def curlyOK (c : Char) : Bool :=
  !(c = '{' || c = '}' || c = '|' || c = '\r' || c = '\n')

/-- Character class of the square base/reading chunks: everything except
the square brackets, the pipe and line breaks. -/
def squareOK (c : Char) : Bool :=
  !(c = '[' || c = ']' || c = '|' || c = '\r' || c = '\n')

/-- Scanner state for the greedy `(?:\|[^…]+)+` tail: expecting the next
pipe, just after a pipe (a chunk char is now mandatory), or inside a chunk. -/
inductive PState where
  | expectPipe
  | afterPipe
  | inChunk
deriving DecidableEq, Repr

/-- Character walk computing how far the greedy `(?:\|[^…]+)+` tail
reaches: `consumed` counts the characters walked, `good` records the count
at the last completed segment (the only positions where the group may
stop, since a trailing pipe without a chunk character cannot be kept). -/
def pipeGo (cl : Char → Bool) : List Char → Nat → Nat → PState → Nat
  | [], _, good, _ => good
  | c :: r, consumed, good, st =>
    match st with
    | .expectPipe =>
      if c = '|' then pipeGo cl r (consumed + 1) good .afterPipe else good
    | .afterPipe =>
      if cl c then pipeGo cl r (consumed + 1) (consumed + 1) .inChunk else good
    | .inChunk =>
      if cl c then pipeGo cl r (consumed + 1) (consumed + 1) .inChunk
      else if c = '|' then pipeGo cl r (consumed + 1) good .afterPipe
      else good

/-- Total length consumed by the greedy `(?:\|[^…]+)+` tail: any number of
pipe-plus-nonempty-chunk groups (`0` when no group matches, the caller
rejects that).  Deterministic equivalent of the backtracking regex: a
shorter realisation of the group always leaves a pipe or a chunk character
— never the closing bracket — at the stop position, so backtracking can
never rescue a failed close. -/
def pipeSegsLen (cl : Char → Bool) (l : List Char) : Nat :=
  pipeGo cl l 0 0 .expectPipe

/-- One manual-override match (the data `matchAll` exposes downstream):
start index, total length, capture group 1 (base) and capture group 2
(the whole `|reading…` tail). -/
structure MMatch where
  idx : Nat
  len : Nat
  g1 : List Char
  g2 : List Char
deriving DecidableEq, Repr

/-- Attempt the manual-override pattern `OPEN base (PIPE reading)+ CLOSE`
anchored at the head of `s`; returns total length and the two capture
groups.  This is the deterministic equivalent of the backtracking regex:
the chunk classes exclude `OPEN`, `CLOSE` and the pipe, so the greedy
`+` munches are forced. -/
def tryManual (cl : Char → Bool) (opc clc : Char) (s : List Char) :
    Option (Nat × List Char × List Char) :=
  match s with
  | [] => none
  | c :: rest =>
    if c = opc then
      let b := takeClassLen cl rest
      if b = 0 then none
      else
        let afterBase := rest.drop b
        let p := pipeSegsLen cl afterBase
        if p = 0 then none
        else
          match afterBase.drop p with
          | c2 :: _ => if c2 = clc then
              some (1 + b + p + 1, rest.take b, afterBase.take p)
            else none
          | [] => none
    else none

/-- JavaScript `text.matchAll(regex)` for the manual-override regexes: try the pattern
at each position; a successful match resumes scanning at its end
(`lastIndex` semantics, realised by a skip counter that disables attempts
over the matched span), a failure advances one code unit. -/
def scanManual (cl : Char → Bool) (opc clc : Char) :
    List Char → Nat → Nat → List MMatch
  | [], _, _ => []
  | c :: rest, pos, skip =>
    if 0 < skip then scanManual cl opc clc rest (pos + 1) (skip - 1)
    else
      match tryManual cl opc clc (c :: rest) with
      | some (len, g1, g2) =>
        ⟨pos, len, g1, g2⟩ :: scanManual cl opc clc rest (pos + 1) (len - 1)
      | none => scanManual cl opc clc rest (pos + 1) 0

/-- Source `NotationStyle` of regex.ts (`none` renamed to avoid clashing with
`Option.none` in proofs). -/
inductive NStyle where
  | curly
  | square
  | noneStyle
deriving DecidableEq, Repr

/-- All matches of `getManualRegex(style)` over a string; for
`'none'` the source returns `/a^/`, which never matches. -/
def manualMatches (style : NStyle) (text : List Char) : List MMatch :=
  match style with
  | .curly => scanManual curlyOK '{' '}' text 0 0
  | .square => scanManual squareOK '[' ']' text 0 0
  | .noneStyle => []

/-- JavaScript `text.matchAll(REGEX_AUTOMATIC)`: the maximal runs of Japanese
characters, as (start index, length) pairs (same skip-counter realisation
of `lastIndex` as `scanManual`). -/
def scanAuto : List Char → Nat → Nat → List (Nat × Nat)
  | [], _, _ => []
  | c :: rest, pos, skip =>
    if 0 < skip then scanAuto rest (pos + 1) (skip - 1)
    else if isAutoChar c then
      let n := takeClassLen isAutoChar rest + 1
      (pos, n) :: scanAuto rest (pos + 1) (n - 1)
    else scanAuto rest (pos + 1) 0

/-- Matches of the automatic regex scanned from `lastIndex = g`
(`String.prototype.matchAll` clones the regex but copies its `lastIndex`;
the module-level `REGEX_AUTOMATIC` is the one shared stateful object). -/
def autoMatchesFrom (g : Nat) (text : List Char) : List (Nat × Nat) :=
  scanAuto (text.drop g) g 0

/-- Matches of the automatic regex over a whole string (fresh scan). -/
def autoMatches (text : List Char) : List (Nat × Nat) :=
  scanAuto text 0 0

/- ------------------------------------------------------------------ -/
/- Live Preview resolver (furiganaLivePreviewMode: buildDecorations)   -/
/- ------------------------------------------------------------------ -/

/-- Source `rangesOverlap(aFrom, aTo, bFrom, bTo)` — half-open interval overlap. -/
def rangesOverlap (aFrom aTo bFrom bTo : Nat) : Bool :=
  decide (aFrom < bTo) && decide (bFrom < aTo)

/-- The backquote code unit (U+0060). -/
def btick : Char := Char.ofNat 0x60

/-- Inner loop of `inlineBacktickRanges`: pair up backticks on a line. -/
def inlineBacktickAux : List Char → Nat → Option Nat → List (Nat × Nat)
  | [], _, _ => []
  | c :: rest, i, op =>
    if c = btick then
      match op with
      | none => inlineBacktickAux rest (i + 1) (some i)
      | some o => (o, i + 1) :: inlineBacktickAux rest (i + 1) none
    else inlineBacktickAux rest (i + 1) op

/-- Source `inlineBacktickRanges(lineText)`: `[from, to)` spans of inline code,
relative to the line start; an unmatched opener produces no range. -/
def inlineBacktickRanges (lineText : List Char) : List (Nat × Nat) :=
  inlineBacktickAux lineText 0 none

/-- One replace decoration of the Live Preview pass: absolute interval plus
the `RubyWidget`'s two parallel arrays. -/
structure Deco where
  fromPos : Nat
  toPos : Nat
  kanji : List (List Char)
  furi : List (List Char)
deriving DecidableEq, Repr

/-- Body of the manual-override loop of `buildDecorations` for one match:
a decoration is pushed only when no selection range overlaps the match.
`kanji` is `parts.length === 1 ? [m[1]] : m[1].split('')`, `furi` is
`parts` verbatim. -/
def manualDecoOf (sels : List (Nat × Nat)) (lineFrom : Nat) (m : MMatch) :
    Option Deco :=
  let f := m.idx + lineFrom
  let t := f + m.len
  if sels.any (fun r => rangesOverlap r.1 r.2 f t) then none
  else
    let parts := (splitPipe m.g2).drop 1
    let kanji := if parts.length = 1 then [m.g1] else m.g1.map (fun c => [c])
    some ⟨f, t, kanji, parts⟩

/-- The manual-override loop of `buildDecorations` for one line; every
match is additionally recorded in `manualRanges` (see `manualRangesAbs`),
whether or not its decoration was skipped. -/
def lineManualDecos (style : NStyle) (sels : List (Nat × Nat))
    (text : List Char) (lineFrom : Nat) : List Deco :=
  (manualMatches style text).filterMap (manualDecoOf sels lineFrom)

/-- The `manualRanges` array of `buildDecorations`: the absolute interval
of every manual match of the line, kept even when the decoration itself is
skipped for overlapping the selection. -/
def manualRangesAbs (style : NStyle) (text : List Char) (lineFrom : Nat) :
    List (Nat × Nat) :=
  (manualMatches style text).map (fun m =>
    (m.idx + lineFrom, m.idx + lineFrom + m.len))

/-- Body of the automatic loop of `buildDecorations` for one span: the
span is dropped when it overlaps a selection range, any manual match range
(`mrs`), or an inline backtick range (`bts`), and otherwise decorated with
the first segment of `getFuriganaSegmentsSync` unless that segment is
empty. -/
def autoDecoOf (hiraF : List Char → List Char)
    (tok : Option (List Char → List KToken)) (sels : List (Nat × Nat))
    (mrs bts : List (Nat × Nat)) (text : List Char) (lineFrom : Nat)
    (a : Nat × Nat) : Option Deco :=
  let f := a.1 + lineFrom
  let t := f + a.2
  if sels.any (fun r => rangesOverlap r.1 r.2 f t) then none
  else if mrs.any (fun r => rangesOverlap r.1 r.2 f t) then none
  else if bts.any (fun r => rangesOverlap (r.1 + lineFrom) (r.2 + lineFrom) f t) then none
  else
    let span := (text.drop a.1).take a.2
    match getFuriganaSegmentsSync hiraF tok span with
    | [] => none
    | (k, fu) :: _ => if k = [] then none else some ⟨f, t, k, fu⟩

/-- The automatic loop of `buildDecorations` for one line (see
`autoDecoOf` for the per-span body). -/
def lineAutoDecosFrom (hiraF : List Char → List Char)
    (tok : Option (List Char → List KToken)) (style : NStyle)
    (sels : List (Nat × Nat)) (g : Nat) (text : List Char) (lineFrom : Nat) :
    List Deco :=
  (autoMatchesFrom g text).filterMap
    (autoDecoOf hiraF tok sels (manualRangesAbs style text lineFrom)
      (inlineBacktickRanges text) text lineFrom)

/-- Automatic decorations of a line with a fresh scan (the program state:
`REGEX_AUTOMATIC.lastIndex` is 0 and never written). -/
def lineAutoDecos (hiraF : List Char → List Char)
    (tok : Option (List Char → List KToken)) (style : NStyle)
    (sels : List (Nat × Nat)) (text : List Char) (lineFrom : Nat) :
    List Deco :=
  lineAutoDecosFrom hiraF tok style sels 0 text lineFrom

/-- The comparator `(a.from - b.from) || (a.to - b.to)` as an order. -/
def decoR (a b : Deco) : Prop :=
  a.fromPos < b.fromPos ∨ (a.fromPos = b.fromPos ∧ a.toPos ≤ b.toPos)

instance : DecidableRel decoR := fun a b => by
  unfold decoR; exact inferInstance

/-- Source `toAdd.sort((a, b) => (a.from - b.from) || (a.to - b.to))` — a stable
sort by ascending `from`, ties by ascending `to`. -/
def sortDecos (l : List Deco) : List Deco :=
  List.insertionSort decoR l

/-- All decorations of one line, sorted before being added to the builder. -/
def lineDecosFrom (hiraF : List Char → List Char)
    (tok : Option (List Char → List KToken)) (style : NStyle)
    (sels : List (Nat × Nat)) (g : Nat) (text : List Char) (lineFrom : Nat) :
    List Deco :=
  sortDecos (lineManualDecos style sels text lineFrom ++
    lineAutoDecosFrom hiraF tok style sels g text lineFrom)

/-- The fence-flag update of `buildDecorations`: toggle on a line whose
trimmed text starts with three backticks
(`if (trimmed.startsWith('\x60\x60\x60')) insideFence = !insideFence`). -/
def fenceToggle (text : List Char) (fence : Bool) : Bool :=
  if startsWithL (jsTrim text) [btick, btick, btick] then !fence else fence

/-- The per-line walk of `buildDecorations` over the visible lines (modelled
as one visible range covering the whole document; `lineFrom` advances by
line length + 1 for the newline, as CodeMirror numbers offsets).  A line is
skipped whenever the fence flag is set after the toggle. -/
def buildLinesFrom (hiraF : List Char → List Char)
    (tok : Option (List Char → List KToken)) (style : NStyle)
    (sels : List (Nat × Nat)) (g : Nat) :
    List (List Char) → Nat → Bool → List Deco
  | [], _, _ => []
  | text :: rest, lineFrom, fence =>
    let fence' := fenceToggle text fence
    let here := if fence' then []
      else lineDecosFrom hiraF tok style sels g text lineFrom
    here ++ buildLinesFrom hiraF tok style sels g rest
      (lineFrom + text.length + 1) fence'

/-- One full `buildDecorations` pass threaded with the shared
`REGEX_AUTOMATIC.lastIndex` state `g`: `matchAll` reads the state into its
clone and never writes it back, so the pass returns it unchanged. -/
def buildDecorationsPass (hiraF : List Char → List Char)
    (tok : Option (List Char → List KToken)) (style : NStyle)
    (sels : List (Nat × Nat)) (g : Nat) (lines : List (List Char)) :
    List Deco × Nat :=
  (buildLinesFrom hiraF tok style sels g lines 0 false, g)

/-- Source `buildDecorations`: the emitted decoration sequence of one Live Preview
pass (program state `lastIndex = 0`). -/
def buildDecorations (hiraF : List Char → List Char)
    (tok : Option (List Char → List KToken)) (style : NStyle)
    (sels : List (Nat × Nat)) (lines : List (List Char)) : List Deco :=
  (buildDecorationsPass hiraF tok style sels 0 lines).1

/- ------------------------------------------------------------------ -/
/- Reading Mode converter (furiganaUtils.ts: convertFurigana)          -/
/- ------------------------------------------------------------------ -/

/-- A node appended to the output fragment: plain text, or a `<ruby>`
carrying the two parallel chunk arrays handed to `makeRuby`. -/
inductive OutNode where
  | txt (s : List Char)
  | ruby (kanji : List (List Char)) (furi : List (List Char))
deriving DecidableEq, Repr

/-- The manual-override chunking of `convertFurigana`: one reading maps the
whole base to it; several readings split the base per character, padding a
count mismatch with the last supplied reading (`parts[i] ?? parts[parts.length-1] ?? ''`). -/
def manualChunksRM (base : List Char) (parts : List (List Char)) :
    List (List Char) × List (List Char) :=
  if parts.length ≤ 1 then ([base], [parts.headD []])
  else
    let kanjiArr := base.map (fun c => [c])
    if parts.length = kanjiArr.length then (kanjiArr, parts)
    else
      (kanjiArr,
       (List.range kanjiArr.length).map (fun i => parts.getD i (parts.getLastD [])))

/-- The `pushAuto` walk over the automatic matches of a plain slice:
text before each match, then either a ruby (kanji present) or the plain
span, then the tail after the last match. -/
def pushAutoLoop (hiraF : List Char → List Char)
    (tok : Option (List Char → List KToken)) (slice : List Char) :
    List (Nat × Nat) → Nat → List OutNode
  | [], last =>
    if last < slice.length then [OutNode.txt (slice.drop last)] else []
  | (idx, len) :: ms, last =>
    let before := if last < idx then
        [OutNode.txt ((slice.drop last).take (idx - last))] else []
    let span := (slice.drop idx).take len
    let node := if hasKanji span then
        let s := (getFuriganaSegmentsSync hiraF tok span).headD ([], [])
        OutNode.ruby s.1 s.2
      else OutNode.txt span
    before ++ node :: pushAutoLoop hiraF tok slice ms (idx + len)

/-- Source `pushAuto(slice)` of `convertFurigana` (the shared fresh `auto` regex
has `lastIndex` 0 at each entry: the previous walk always ran to
exhaustion, which resets a global regex). -/
def pushAutoNodes (hiraF : List Char → List Char)
    (tok : Option (List Char → List KToken)) (slice : List Char) :
    List OutNode :=
  pushAutoLoop hiraF tok slice (autoMatches slice) 0

/-- The manual-match walk of `convertFurigana`: automatic processing covers
the gap before each match and the tail after the last one. -/
def convertLoop (hiraF : List Char → List Char)
    (tok : Option (List Char → List KToken)) (text : List Char) :
    List MMatch → Nat → List OutNode
  | [], cursor =>
    if cursor < text.length then pushAutoNodes hiraF tok (text.drop cursor) else []
  | m :: ms, cursor =>
    let before := if cursor < m.idx then
        pushAutoNodes hiraF tok ((text.drop cursor).take (m.idx - cursor)) else []
    let parts := (splitPipe m.g2).drop 1
    let ch := manualChunksRM m.g1 parts
    before ++ OutNode.ruby ch.1 ch.2 :: convertLoop hiraF tok text ms (m.idx + m.len)

/-- Source `convertFurigana(textNode, REGEX_MANUAL, REGEX_AUTOMATIC)`: the output
node sequence.  `mLast`/`aLast` are the `lastIndex` states of the two
regexes handed in; the source rebuilds both with
`new RegExp(source, 'g')`, resetting `lastIndex` to 0, so the incoming
states are discarded and matching always starts at 0. -/
def convertFurigana (hiraF : List Char → List Char)
    (tok : Option (List Char → List KToken)) (style : NStyle)
    (_mLast _aLast : Nat) (text : List Char) : List OutNode :=
  convertLoop hiraF tok text (manualMatches style text) 0

/- ------------------------------------------------------------------ -/
/- Concrete model of the external reading normalizer                   -/
/- ------------------------------------------------------------------ -/

/-- Modelled from the spec: the external Reading Normalizer
(`wanakana.toHiragana`, a library outside src/) — "conversion between
katakana and hiragana is a pure, stateless mapping": shift the katakana
block onto hiragana, leave everything else.  Used only to instantiate
theorems at concrete inputs; all general theorems quantify over the
normalizer. -/
def hiraChar (c : Char) : Char :=
  if 0x30A1 ≤ c.toNat ∧ c.toNat ≤ 0x30F6 then Char.ofNat (c.toNat - 0x60) else c

/-- Modelled from the spec: `wanakana.toHiragana` lifted to strings. -/
def hiraModel (s : List Char) : List Char := s.map hiraChar

/- ------------------------------------------------------------------ -/
/- Verification predicates                                             -/
/- ------------------------------------------------------------------ -/

/-- Two decorations do not overlap (under the source's half-open test). -/
def noOv (a b : Deco) : Prop :=
  rangesOverlap a.fromPos a.toPos b.fromPos b.toPos = false

/- ================================================================== -/
/- Theorems                                                            -/
/- ================================================================== -/

/-- The leading loop only moves characters from the front of the surface:
collected prefix plus remainder is the surface. -/
theorem okuPfx_append (hiraF : List Char → List Char) :
    ∀ (surface r : List Char),
      (okuPfx hiraF surface r).b ++ (okuPfx hiraF surface r).rest = surface := by
  intro surface
  induction surface with
  | nil => intro r; simp [okuPfx]
  | cons c cs ih =>
    intro r
    simp only [okuPfx]
    split
    · split
      · simpa using ih (r.drop (hiraF [c]).length)
      · simp
    · simp

/-- The trailing loop only moves characters from the front of the reversed
remainder: the collected suffix (reversed) plus the rest is the input. -/
theorem okuSfx_append (hiraF : List Char → List Char) :
    ∀ (srev r : List Char),
      (okuSfx hiraF srev r).b.reverse ++ (okuSfx hiraF srev r).rest = srev := by
  intro srev
  induction srev with
  | nil => intro r; simp [okuSfx]
  | cons c cs ih =>
    intro r
    simp only [okuSfx]
    split
    · split
      · simpa using ih (r.take (r.length - (hiraF [c]).length))
      · simp
    · simp

/-- Claim C5: for every surface string and normalized reading, the
okurigana splitter's three base parts concatenate back to the surface:
`prefix.base + base + suffix.base == surface`. -/
theorem splitOkurigana_concat (hiraF : List Char → List Char)
    (surface readingHira : List Char) :
    (splitOkurigana hiraF surface readingHira).pfxBase ++
      (splitOkurigana hiraF surface readingHira).base ++
      (splitOkurigana hiraF surface readingHira).sfxBase = surface := by
  simp only [splitOkurigana]
  have h1 := okuPfx_append hiraF surface readingHira
  have h2 := okuSfx_append hiraF (okuPfx hiraF surface readingHira).rest.reverse
    (okuPfx hiraF surface readingHira).rrest
  have h2' := congrArg List.reverse h2
  simp only [List.reverse_append, List.reverse_reverse] at h2'
  rw [List.append_assoc, h2', h1]

/-- A kanji character is not kana (the Unicode ranges are disjoint). -/
theorem isKanji_not_kana (c : Char) :
    isKanjiChar c = true → isKana c = false := by
  intro h
  cases hk : isKana c with
  | false => rfl
  | true =>
    exfalso
    simp only [isKanjiChar, Bool.or_eq_true, Bool.and_eq_true, decide_eq_true_eq] at h
    simp only [isKana, Bool.or_eq_true, Bool.and_eq_true, decide_eq_true_eq] at hk
    omega

/-- The leading loop consumes only kana, so a kanji in the surface stays in
the remainder. -/
theorem okuPfx_kanji (hiraF : List Char → List Char) :
    ∀ (surface r : List Char), hasKanji surface = true →
      hasKanji (okuPfx hiraF surface r).rest = true := by
  intro surface
  induction surface with
  | nil => intro r h; simp [hasKanji] at h
  | cons c cs ih =>
    intro r h
    simp only [okuPfx]
    split
    · rename_i hkana
      split
      · have hck : isKanjiChar c = false := by
          cases hc : isKanjiChar c with
          | false => rfl
          | true => rw [isKanji_not_kana c hc] at hkana; exact absurd hkana (by simp)
        have hcs : hasKanji cs = true := by
          simpa only [hasKanji, List.any_cons, hck, Bool.false_or] using h
        simpa using ih (r.drop (hiraF [c]).length) hcs
      · simpa using h
    · simpa using h

/-- The trailing loop consumes only kana, so a kanji in the reversed
remainder stays in its rest. -/
theorem okuSfx_kanji (hiraF : List Char → List Char) :
    ∀ (srev r : List Char), hasKanji srev = true →
      hasKanji (okuSfx hiraF srev r).rest = true := by
  intro srev
  induction srev with
  | nil => intro r h; simp [hasKanji] at h
  | cons c cs ih =>
    intro r h
    simp only [okuSfx]
    split
    · rename_i hkana
      split
      · have hck : isKanjiChar c = false := by
          cases hc : isKanjiChar c with
          | false => rfl
          | true => rw [isKanji_not_kana c hc] at hkana; exact absurd hkana (by simp)
        have hcs : hasKanji cs = true := by
          simpa only [hasKanji, List.any_cons, hck, Bool.false_or] using h
        simpa using ih (r.take (r.length - (hiraF [c]).length)) hcs
      · simpa using h
    · simpa using h

/-- Predicate `hasKanji` ignores reversal. -/
theorem hasKanji_reverse (l : List Char) : hasKanji l.reverse = hasKanji l := by
  simp [hasKanji, List.any_reverse]

/-- A surface containing a kanji yields a non-empty kanji core. -/
theorem splitOkurigana_base_ne_nil (hiraF : List Char → List Char)
    (sf rh : List Char) (hk : hasKanji sf = true) :
    (splitOkurigana hiraF sf rh).base ≠ [] := by
  simp only [splitOkurigana]
  have h2 : hasKanji (okuSfx hiraF (okuPfx hiraF sf rh).rest.reverse
      (okuPfx hiraF sf rh).rrest).rest = true :=
    okuSfx_kanji hiraF _ _ (by rw [hasKanji_reverse]; exact okuPfx_kanji hiraF sf rh hk)
  intro hnil
  rw [List.reverse_eq_nil_iff] at hnil
  rw [hnil] at h2
  simp [hasKanji] at h2

/-- Claim C10: a surface containing a kanji yields a non-empty kanji core,
and the segment-builder step for such a token appends the core pair (it is
never silently dropped). -/
theorem splitOkurigana_base_emitted (hiraF : List Char → List Char)
    (surface readingHira : List Char)
    (acc : List (List Char) × List (List Char)) (t : KToken)
    (hs : hasKanji surface = true) (ht : hasKanji t.surface = true) :
    (splitOkurigana hiraF surface readingHira).base ≠ [] ∧
    ∃ l1 l2, (segStep hiraF acc t).1 = acc.1 ++ l1 ∧
      (segStep hiraF acc t).2 = acc.2 ++ l2 ∧
      (splitOkurigana hiraF t.surface (hiraF (readingRaw t))).base ∈ l1 := by
  refine ⟨splitOkurigana_base_ne_nil hiraF surface readingHira hs, ?_⟩
  have hts : t.surface ≠ [] := by
    intro hnil; rw [hnil] at ht; simp [hasKanji] at ht
  simp only [segStep, if_neg hts, ht]
  generalize hG : splitOkurigana hiraF t.surface (hiraF (readingRaw t)) = sp
  have hb : sp.base ≠ [] := by
    rw [← hG]; exact splitOkurigana_base_ne_nil hiraF t.surface _ ht
  by_cases hp : sp.pfxBase = [] <;> by_cases hq : sp.sfxBase = []
  · exact ⟨[sp.base],
      [if sp.baseReading ≠ [] then sp.baseReading else hiraF (readingRaw t)],
      by simp [hp, hq, hb], by simp [hp, hq, hb], by simp⟩
  · exact ⟨[sp.base, sp.sfxBase],
      [if sp.baseReading ≠ [] then sp.baseReading else hiraF (readingRaw t),
        sp.sfxReading],
      by simp [hp, hq, hb], by simp [hp, hq, hb], by simp⟩
  · exact ⟨[sp.pfxBase, sp.base],
      [sp.pfxReading,
        if sp.baseReading ≠ [] then sp.baseReading else hiraF (readingRaw t)],
      by simp [hp, hq, hb], by simp [hp, hq, hb], by simp⟩
  · exact ⟨[sp.pfxBase, sp.base, sp.sfxBase],
      [sp.pfxReading,
        if sp.baseReading ≠ [] then sp.baseReading else hiraF (readingRaw t),
        sp.sfxReading],
      by simp [hp, hq, hb], by simp [hp, hq, hb], by simp⟩

/-- Witness for C10 at a concrete kanji token. -/
theorem splitOkurigana_base_emitted_witness :
    (splitOkurigana hiraModel ['願'] ['ね']).base ≠ [] :=
  (splitOkurigana_base_emitted hiraModel ['願'] ['ね'] ([], [])
    ⟨['願'], none⟩ (by decide) (by decide)).1

/-- One `segStep` keeps the two arrays the same length and never shrinks
them. -/
theorem segStep_len (hiraF : List Char → List Char)
    (acc : List (List Char) × List (List Char)) (t : KToken)
    (h : acc.1.length = acc.2.length) :
    (segStep hiraF acc t).1.length = (segStep hiraF acc t).2.length ∧
    acc.1.length ≤ (segStep hiraF acc t).1.length := by
  simp only [segStep]
  split
  · exact ⟨h, le_refl _⟩
  · split
    · simp [h]
    · split <;> split <;> split <;> simp [h]

/-- The token fold keeps the two arrays the same length and never shrinks
them. -/
theorem foldl_segStep_len (hiraF : List Char → List Char) :
    ∀ (tokens : List KToken) (acc : List (List Char) × List (List Char)),
      acc.1.length = acc.2.length →
      (tokens.foldl (segStep hiraF) acc).1.length =
        (tokens.foldl (segStep hiraF) acc).2.length ∧
      acc.1.length ≤ (tokens.foldl (segStep hiraF) acc).1.length := by
  intro tokens
  induction tokens with
  | nil => intro acc h; exact ⟨h, le_refl _⟩
  | cons t ts ih =>
    intro acc h
    have h1 := segStep_len hiraF acc t h
    have h2 := ih (segStep hiraF acc t) h1.1
    exact ⟨h2.1, le_trans h1.2 h2.2⟩

/-- Claim C4: for every non-empty input, the segment builder returns a
single segment whose two parallel arrays have equal length at least 1,
whatever the tokenizer and normalizer do. -/
theorem getFuriganaSegmentsSync_aligned (hiraF : List Char → List Char)
    (tok : Option (List Char → List KToken)) (jp : List Char)
    (hne : jp ≠ []) :
    ∃ k f, getFuriganaSegmentsSync hiraF tok jp = [(k, f)] ∧
      k.length = f.length ∧ 1 ≤ k.length := by
  simp only [getFuriganaSegmentsSync, if_neg hne]
  set tokens := (match tok with
    | some tk => tk jp
    | none => [(⟨jp, none⟩ : KToken)]) with htk
  set out := tokens.foldl (segStep hiraF) ([], []) with hout
  by_cases h0 : out.1 = []
  · refine ⟨[jp], [hiraF jp], by simp [h0], by simp, by simp⟩
  · have hlen := foldl_segStep_len hiraF tokens ([], []) (by simp)
    refine ⟨out.1, out.2, by simp [h0], ?_, ?_⟩
    · exact hlen.1
    · have : 0 < out.1.length := List.length_pos.mpr h0
      omega

/-- Witness for C4 at a concrete one-character input. -/
theorem getFuriganaSegmentsSync_aligned_witness :
    ∃ k f, getFuriganaSegmentsSync hiraModel none ['あ'] = [(k, f)] ∧
      k.length = f.length ∧ 1 ≤ k.length :=
  getFuriganaSegmentsSync_aligned hiraModel none ['あ'] (by decide)

/-- Claim C9: the segment builder returns exactly one segment for every
input, and the empty input yields the one segment with two empty but
equal-length arrays (no fallback pair, no missing result). -/
theorem getFuriganaSegmentsSync_singleton (hiraF : List Char → List Char)
    (tok : Option (List Char → List KToken)) (jp : List Char) :
    (getFuriganaSegmentsSync hiraF tok jp).length = 1 ∧
    getFuriganaSegmentsSync hiraF tok [] = [([], [])] := by
  constructor
  · simp only [getFuriganaSegmentsSync]
    split
    · rfl
    · split <;> rfl
  · rfl

/-- Claim C7: parsing the two curly-style literals produces exactly the
advertised aligned arrays, whatever the tokenizer and normalizer do (the
matches cover the whole string, so the automatic path never runs). -/
theorem convertFurigana_curly_literals (hiraF : List Char → List Char)
    (tok : Option (List Char → List KToken)) :
    convertFurigana hiraF tok .curly 0 0
        ['{', '漢', '字', '|', 'か', 'ん', '|', 'じ', '}'] =
      [OutNode.ruby [['漢'], ['字']] [['か', 'ん'], ['じ']]] ∧
    convertFurigana hiraF tok .curly 0 0
        ['{', '今', '日', '|', 'き', 'ょ', 'う', '}'] =
      [OutNode.ruby [['今', '日']] [['き', 'ょ', 'う']]] :=
  ⟨rfl, rfl⟩

/-- Claim C8: the pipeline is a deterministic function of its inputs with
no scan-position state carried between invocations: the Reading Mode
converter ignores the `lastIndex` state of the regexes handed to it
(it rebuilds them), and a Live Preview pass leaves the shared automatic
regex state unchanged, so an immediately repeated pass over identical
inputs emits the identical decoration sequence. -/
theorem pipeline_deterministic (hiraF : List Char → List Char)
    (tok : Option (List Char → List KToken)) (style : NStyle)
    (sels : List (Nat × Nat)) (lines : List (List Char)) (g : Nat)
    (m1 a1 m2 a2 : Nat) (text : List Char) :
    convertFurigana hiraF tok style m1 a1 text =
      convertFurigana hiraF tok style m2 a2 text ∧
    (buildDecorationsPass hiraF tok style sels g lines).2 = g ∧
    (buildDecorationsPass hiraF tok style sels
        ((buildDecorationsPass hiraF tok style sels g lines).2) lines).1 =
      (buildDecorationsPass hiraF tok style sels g lines).1 :=
  ⟨rfl, rfl, rfl⟩

/-- The greedy class munch never exceeds the string. -/
theorem takeClassLen_le (p : Char → Bool) :
    ∀ l : List Char, takeClassLen p l ≤ l.length := by
  intro l
  induction l with
  | nil => simp [takeClassLen]
  | cons c cs ih =>
    simp only [takeClassLen, List.length_cons]
    split
    · omega
    · omega

/-- The pipe-tail walk never reports more than what it consumed. -/
theorem pipeGo_le (cl : Char → Bool) :
    ∀ (l : List Char) (consumed good : Nat) (st : PState),
      good ≤ consumed → pipeGo cl l consumed good st ≤ consumed + l.length := by
  intro l
  induction l with
  | nil => intro consumed good st h; simpa [pipeGo] using h
  | cons c r ih =>
    intro consumed good st h
    cases st with
    | expectPipe =>
      simp only [pipeGo, List.length_cons]
      split
      · have := ih (consumed + 1) good .afterPipe (by omega)
        omega
      · omega
    | afterPipe =>
      simp only [pipeGo, List.length_cons]
      split
      · have := ih (consumed + 1) (consumed + 1) .inChunk (by omega)
        omega
      · omega
    | inChunk =>
      simp only [pipeGo, List.length_cons]
      split
      · have := ih (consumed + 1) (consumed + 1) .inChunk (by omega)
        omega
      · split
        · have := ih (consumed + 1) good .afterPipe (by omega)
          omega
        · omega

/-- The pipe tail stays inside the string. -/
theorem pipeSegsLen_le (cl : Char → Bool) (l : List Char) :
    pipeSegsLen cl l ≤ l.length := by
  simpa using pipeGo_le cl l 0 0 .expectPipe (le_refl 0)

/-- A successful manual-pattern attempt has positive length and stays
inside the string. -/
theorem tryManual_bounds (cl : Char → Bool) (opc clc : Char)
    (s : List Char) (len : Nat) (g1 g2 : List Char)
    (h : tryManual cl opc clc s = some (len, g1, g2)) :
    1 ≤ len ∧ len ≤ s.length := by
  match s with
  | [] => simp [tryManual] at h
  | c :: rest =>
    simp only [tryManual] at h
    split at h
    · split at h
      · exact absurd h (by simp)
      · split at h
        · exact absurd h (by simp)
        · rename_i hb hp
          split at h
          · split at h
            · rename_i heq c2 l2 hdrop hc2
              have h1 : takeClassLen cl rest ≤ rest.length := takeClassLen_le cl rest
              have h2 : pipeSegsLen cl (rest.drop (takeClassLen cl rest)) ≤
                  (rest.drop (takeClassLen cl rest)).length :=
                pipeSegsLen_le cl _
              have h3 : ¬((rest.drop (takeClassLen cl rest)).length ≤
                  pipeSegsLen cl (rest.drop (takeClassLen cl rest))) := by
                intro hle
                have : (rest.drop (takeClassLen cl rest)).drop
                    (pipeSegsLen cl (rest.drop (takeClassLen cl rest))) = [] :=
                  List.drop_eq_nil_iff.mpr hle
                rw [this] at hdrop
                exact List.noConfusion hdrop
              simp only [List.length_drop] at h2 h3
              injection h with h
              injection h with hlen hrest
              simp only [List.length_cons]
              omega
            · exact absurd h (by simp)
          · exact absurd h (by simp)
    · exact absurd h (by simp)

/-- Every match reported by the manual scanner lies past the pending skip,
has positive length, and stays inside the scanned string. -/
theorem scanManual_mem (cl : Char → Bool) (opc clc : Char) :
    ∀ (s : List Char) (pos skip : Nat) (m : MMatch),
      m ∈ scanManual cl opc clc s pos skip →
      pos + skip ≤ m.idx ∧ 1 ≤ m.len ∧ m.idx + m.len ≤ pos + s.length := by
  intro s
  induction s with
  | nil => intro pos skip m hm; simp [scanManual] at hm
  | cons c rest ih =>
    intro pos skip m hm
    simp only [scanManual] at hm
    split at hm
    · have := ih (pos + 1) (skip - 1) m hm
      rename_i hskip
      simp only [List.length_cons]
      omega
    · split at hm
      · rename_i len g1 g2 htry
        rcases List.mem_cons.mp hm with hm | hm
        · subst hm
          have := tryManual_bounds cl opc clc (c :: rest) len g1 g2 htry
          simp only [List.length_cons] at this ⊢
          omega
        · have h1 := ih (pos + 1) (len - 1) m hm
          have h2 := tryManual_bounds cl opc clc (c :: rest) len g1 g2 htry
          simp only [List.length_cons] at h2 ⊢
          omega
      · have := ih (pos + 1) 0 m hm
        simp only [List.length_cons]
        omega

/-- The matches of the manual scanner come out in order: each ends at or
before the start of the next. -/
theorem scanManual_pair (cl : Char → Bool) (opc clc : Char) :
    ∀ (s : List Char) (pos skip : Nat),
      List.Pairwise (fun a b : MMatch => a.idx + a.len ≤ b.idx)
        (scanManual cl opc clc s pos skip) := by
  intro s
  induction s with
  | nil => intro pos skip; simp [scanManual]
  | cons c rest ih =>
    intro pos skip
    simp only [scanManual]
    split
    · exact ih (pos + 1) (skip - 1)
    · split
      · rename_i len g1 g2 htry
        refine List.Pairwise.cons ?_ (ih (pos + 1) (len - 1))
        intro b hb
        have h1 := scanManual_mem cl opc clc rest (pos + 1) (len - 1) b hb
        have h2 := tryManual_bounds cl opc clc (c :: rest) len g1 g2 htry
        simp only []
        omega
      · exact ih (pos + 1) 0

/-- Every match reported by the automatic scanner lies past the pending
skip, has positive length, and stays inside the scanned string. -/
theorem scanAuto_mem :
    ∀ (s : List Char) (pos skip : Nat) (a : Nat × Nat),
      a ∈ scanAuto s pos skip →
      pos + skip ≤ a.1 ∧ 1 ≤ a.2 ∧ a.1 + a.2 ≤ pos + s.length := by
  intro s
  induction s with
  | nil => intro pos skip a ha; simp [scanAuto] at ha
  | cons c rest ih =>
    intro pos skip a ha
    simp only [scanAuto] at ha
    split at ha
    · have := ih (pos + 1) (skip - 1) a ha
      simp only [List.length_cons]
      omega
    · split at ha
      · rcases List.mem_cons.mp ha with ha | ha
        · subst ha
          have := takeClassLen_le isAutoChar rest
          simp only [List.length_cons]
          omega
        · have h1 := ih (pos + 1) (takeClassLen isAutoChar rest + 1 - 1) a ha
          have h2 := takeClassLen_le isAutoChar rest
          simp only [List.length_cons]
          omega
      · have := ih (pos + 1) 0 a ha
        simp only [List.length_cons]
        omega

/-- The matches of the automatic scanner come out in order: each ends at or
before the start of the next. -/
theorem scanAuto_pair :
    ∀ (s : List Char) (pos skip : Nat),
      List.Pairwise (fun a b : Nat × Nat => a.1 + a.2 ≤ b.1)
        (scanAuto s pos skip) := by
  intro s
  induction s with
  | nil => intro pos skip; simp [scanAuto]
  | cons c rest ih =>
    intro pos skip
    simp only [scanAuto]
    split
    · exact ih (pos + 1) (skip - 1)
    · split
      · refine List.Pairwise.cons ?_ (ih (pos + 1) (takeClassLen isAutoChar rest + 1 - 1))
        intro b hb
        have h1 := scanAuto_mem rest (pos + 1) (takeClassLen isAutoChar rest + 1 - 1) b hb
        simp only []
        omega
      · exact ih (pos + 1) 0

/-- Bounds for the style-dispatched manual matches of a line. -/
theorem manualMatches_mem (style : NStyle) (text : List Char) (m : MMatch)
    (hm : m ∈ manualMatches style text) :
    1 ≤ m.len ∧ m.idx + m.len ≤ text.length := by
  cases style with
  | curly =>
    have := scanManual_mem curlyOK '{' '}' text 0 0 m hm
    omega
  | square =>
    have := scanManual_mem squareOK '[' ']' text 0 0 m hm
    omega
  | noneStyle => simp [manualMatches] at hm

/-- Ordering for the style-dispatched manual matches of a line. -/
theorem manualMatches_pair (style : NStyle) (text : List Char) :
    List.Pairwise (fun a b : MMatch => a.idx + a.len ≤ b.idx)
      (manualMatches style text) := by
  cases style with
  | curly => exact scanManual_pair curlyOK '{' '}' text 0 0
  | square => exact scanManual_pair squareOK '[' ']' text 0 0
  | noneStyle => simp [manualMatches]

/-- Bounds for the automatic matches scanned from `lastIndex = g`. -/
theorem autoMatchesFrom_mem (g : Nat) (text : List Char) (a : Nat × Nat)
    (ha : a ∈ autoMatchesFrom g text) :
    1 ≤ a.2 ∧ a.1 + a.2 ≤ text.length := by
  by_cases hg : g ≤ text.length
  · have := scanAuto_mem (text.drop g) g 0 a ha
    simp only [List.length_drop] at this
    omega
  · have hd : text.drop g = [] := List.drop_eq_nil_iff.mpr (by omega)
    rw [autoMatchesFrom, hd] at ha
    simp [scanAuto] at ha

/-- Ordering for the automatic matches scanned from `lastIndex = g`. -/
theorem autoMatchesFrom_pair (g : Nat) (text : List Char) :
    List.Pairwise (fun a b : Nat × Nat => a.1 + a.2 ≤ b.1)
      (autoMatchesFrom g text) :=
  scanAuto_pair (text.drop g) g 0

/-- The overlap test is symmetric. -/
theorem rangesOverlap_comm (a b c d : Nat) :
    rangesOverlap a b c d = rangesOverlap c d a b := by
  simp [rangesOverlap, Bool.and_comm]

/-- Disjoint half-open intervals (first ends at or before the second) do
not overlap. -/
theorem rangesOverlap_of_disjoint (a b c d : Nat) (h : b ≤ c) :
    rangesOverlap a b c d = false := by
  have hcb : ¬(c < b) := by omega
  simp [rangesOverlap, hcb]

/-- What a pushed manual decoration looks like: its interval is the match
interval and it survived the selection filter. -/
theorem manualDecoOf_some (sels : List (Nat × Nat)) (lf : Nat) (m : MMatch)
    (d : Deco) (h : manualDecoOf sels lf m = some d) :
    d.fromPos = m.idx + lf ∧ d.toPos = m.idx + lf + m.len ∧
    ∀ s ∈ sels, rangesOverlap s.1 s.2 d.fromPos d.toPos = false := by
  simp only [manualDecoOf] at h
  split at h
  · exact absurd h (by simp)
  · rename_i hsel
    injection h with h
    subst h
    refine ⟨rfl, rfl, ?_⟩
    intro s hs
    have hall : sels.any
        (fun r => rangesOverlap r.1 r.2 (m.idx + lf) (m.idx + lf + m.len)) = false := by
      revert hsel
      cases sels.any (fun r => rangesOverlap r.1 r.2 (m.idx + lf) (m.idx + lf + m.len)) <;>
        simp
    have := List.any_eq_false.mp hall s hs
    revert this
    cases rangesOverlap s.1 s.2 (m.idx + lf) (m.idx + lf + m.len) <;> simp

/-- What a pushed automatic decoration looks like: its interval is the
match interval and it survived the selection, manual-range and backtick
filters. -/
theorem autoDecoOf_some (hiraF : List Char → List Char)
    (tok : Option (List Char → List KToken)) (sels mrs bts : List (Nat × Nat))
    (text : List Char) (lf : Nat) (a : Nat × Nat) (d : Deco)
    (h : autoDecoOf hiraF tok sels mrs bts text lf a = some d) :
    d.fromPos = a.1 + lf ∧ d.toPos = a.1 + lf + a.2 ∧
    (∀ s ∈ sels, rangesOverlap s.1 s.2 d.fromPos d.toPos = false) ∧
    (∀ r ∈ mrs, rangesOverlap r.1 r.2 d.fromPos d.toPos = false) ∧
    (∀ r ∈ bts, rangesOverlap (r.1 + lf) (r.2 + lf) d.fromPos d.toPos = false) := by
  simp only [autoDecoOf] at h
  split at h
  · exact absurd h (by simp)
  · rename_i hsel
    split at h
    · exact absurd h (by simp)
    · rename_i hmrs
      split at h
      · exact absurd h (by simp)
      · rename_i hbts
        split at h
        · exact absurd h (by simp)
        · rename_i k fu tl hsegs
          split at h
          · exact absurd h (by simp)
          · injection h with h
            subst h
            refine ⟨rfl, rfl, ?_, ?_, ?_⟩
            · intro s hs
              have hall : sels.any
                  (fun r => rangesOverlap r.1 r.2 (a.1 + lf) (a.1 + lf + a.2)) = false := by
                revert hsel
                cases sels.any (fun r => rangesOverlap r.1 r.2 (a.1 + lf) (a.1 + lf + a.2)) <;>
                  simp
              have := List.any_eq_false.mp hall s hs
              revert this
              cases rangesOverlap s.1 s.2 (a.1 + lf) (a.1 + lf + a.2) <;> simp
            · intro r hr
              have hall : mrs.any
                  (fun r => rangesOverlap r.1 r.2 (a.1 + lf) (a.1 + lf + a.2)) = false := by
                revert hmrs
                cases mrs.any (fun r => rangesOverlap r.1 r.2 (a.1 + lf) (a.1 + lf + a.2)) <;>
                  simp
              have := List.any_eq_false.mp hall r hr
              revert this
              cases rangesOverlap r.1 r.2 (a.1 + lf) (a.1 + lf + a.2) <;> simp
            · intro r hr
              have hall : bts.any
                  (fun r => rangesOverlap (r.1 + lf) (r.2 + lf) (a.1 + lf) (a.1 + lf + a.2)) = false := by
                revert hbts
                cases bts.any
                    (fun r => rangesOverlap (r.1 + lf) (r.2 + lf) (a.1 + lf) (a.1 + lf + a.2)) <;>
                  simp
              have := List.any_eq_false.mp hall r hr
              revert this
              cases rangesOverlap (r.1 + lf) (r.2 + lf) (a.1 + lf) (a.1 + lf + a.2) <;> simp

/-- Pairwise facts survive `filterMap` when the mapping transports the
relation. -/
theorem pairwise_filterMap_of {α β : Type} (f : α → Option β)
    {R : α → α → Prop} {S : β → β → Prop}
    (hf : ∀ a b x y, R a b → f a = some x → f b = some y → S x y) :
    ∀ {l : List α}, l.Pairwise R → (l.filterMap f).Pairwise S := by
  intro l hl
  induction hl with
  | nil => simp
  | @cons a l' ha _ ih =>
    cases hfa : f a with
    | none => simpa [List.filterMap_cons, hfa] using ih
    | some x =>
      simp only [List.filterMap_cons, hfa]
      refine List.Pairwise.cons ?_ ih
      intro y hy
      obtain ⟨b, hb, hfb⟩ := List.mem_filterMap.mp hy
      exact hf a b x y (ha b hb) hfa hfb

instance : IsTrans Deco decoR :=
  ⟨by intro a b c hab hbc; unfold decoR at *; omega⟩

instance : IsTotal Deco decoR :=
  ⟨by intro a b; unfold decoR; omega⟩

/-- Manual decorations of a line come out strictly in text order. -/
theorem lineManualDecos_before (style : NStyle) (sels : List (Nat × Nat))
    (text : List Char) (lf : Nat) :
    List.Pairwise (fun d1 d2 : Deco => d1.toPos ≤ d2.fromPos)
      (lineManualDecos style sels text lf) := by
  unfold lineManualDecos
  refine pairwise_filterMap_of _ ?_ (manualMatches_pair style text)
  intro m1 m2 x y hR h1 h2
  obtain ⟨e1, e2, _⟩ := manualDecoOf_some sels lf m1 x h1
  obtain ⟨f1, f2, _⟩ := manualDecoOf_some sels lf m2 y h2
  omega

/-- Automatic decorations of a line come out strictly in text order. -/
theorem lineAutoDecos_before (hiraF : List Char → List Char)
    (tok : Option (List Char → List KToken)) (style : NStyle)
    (sels : List (Nat × Nat)) (g : Nat) (text : List Char) (lf : Nat) :
    List.Pairwise (fun d1 d2 : Deco => d1.toPos ≤ d2.fromPos)
      (lineAutoDecosFrom hiraF tok style sels g text lf) := by
  unfold lineAutoDecosFrom
  refine pairwise_filterMap_of _ ?_ (autoMatchesFrom_pair g text)
  intro a1 a2 x y hR h1 h2
  obtain ⟨e1, e2, _⟩ := autoDecoOf_some hiraF tok sels _ _ text lf a1 x h1
  obtain ⟨f1, f2, _⟩ := autoDecoOf_some hiraF tok sels _ _ text lf a2 y h2
  omega

/-- An emitted automatic decoration never overlaps an emitted manual
decoration of the same line (the automatic loop filters against every
manual match range). -/
theorem lineDecos_cross (hiraF : List Char → List Char)
    (tok : Option (List Char → List KToken)) (style : NStyle)
    (sels : List (Nat × Nat)) (g : Nat) (text : List Char) (lf : Nat) :
    ∀ dm ∈ lineManualDecos style sels text lf,
      ∀ da ∈ lineAutoDecosFrom hiraF tok style sels g text lf, noOv dm da := by
  intro dm hdm da hda
  obtain ⟨m, hm, hsome⟩ := List.mem_filterMap.mp hdm
  obtain ⟨e1, e2, _⟩ := manualDecoOf_some sels lf m dm hsome
  obtain ⟨a, _, hsome2⟩ := List.mem_filterMap.mp hda
  obtain ⟨_, _, _, hmrs, _⟩ := autoDecoOf_some hiraF tok sels _ _ text lf a da hsome2
  have hmem : (m.idx + lf, m.idx + lf + m.len) ∈ manualRangesAbs style text lf :=
    List.mem_map_of_mem _ hm
  have := hmrs _ hmem
  unfold noOv
  rw [e1, e2]
  exact this

/-- The sorted decorations of one line are pairwise non-overlapping. -/
theorem lineDecosFrom_noOv (hiraF : List Char → List Char)
    (tok : Option (List Char → List KToken)) (style : NStyle)
    (sels : List (Nat × Nat)) (g : Nat) (text : List Char) (lf : Nat) :
    List.Pairwise noOv (lineDecosFrom hiraF tok style sels g text lf) := by
  unfold lineDecosFrom sortDecos
  have hsymm : ∀ {x y : Deco}, noOv x y → noOv y x := by
    intro x y h
    unfold noOv at *
    rw [rangesOverlap_comm]
    exact h
  refine ((List.perm_insertionSort decoR _).pairwise_iff hsymm).mpr ?_
  rw [List.pairwise_append]
  refine ⟨?_, ?_, ?_⟩
  · exact (lineManualDecos_before style sels text lf).imp
      (fun h => rangesOverlap_of_disjoint _ _ _ _ h)
  · exact (lineAutoDecos_before hiraF tok style sels g text lf).imp
      (fun h => rangesOverlap_of_disjoint _ _ _ _ h)
  · exact lineDecos_cross hiraF tok style sels g text lf

/-- The decorations of one line are sorted by ascending `from`, ties by
ascending `to`. -/
theorem lineDecosFrom_sorted (hiraF : List Char → List Char)
    (tok : Option (List Char → List KToken)) (style : NStyle)
    (sels : List (Nat × Nat)) (g : Nat) (text : List Char) (lf : Nat) :
    List.Pairwise decoR (lineDecosFrom hiraF tok style sels g text lf) :=
  List.sorted_insertionSort decoR _

/-- Every decoration of a line lies inside the line. -/
theorem lineDecosFrom_bounds (hiraF : List Char → List Char)
    (tok : Option (List Char → List KToken)) (style : NStyle)
    (sels : List (Nat × Nat)) (g : Nat) (text : List Char) (lf : Nat) :
    ∀ d ∈ lineDecosFrom hiraF tok style sels g text lf,
      lf ≤ d.fromPos ∧ d.fromPos < d.toPos ∧ d.toPos ≤ lf + text.length := by
  intro d hd
  have hd' := (List.perm_insertionSort decoR _).mem_iff.mp hd
  rcases List.mem_append.mp hd' with h | h
  · obtain ⟨m, hm, hsome⟩ := List.mem_filterMap.mp h
    obtain ⟨e1, e2, _⟩ := manualDecoOf_some sels lf m d hsome
    have := manualMatches_mem style text m hm
    omega
  · obtain ⟨a, ha, hsome⟩ := List.mem_filterMap.mp h
    obtain ⟨e1, e2, _⟩ := autoDecoOf_some hiraF tok sels _ _ text lf a d hsome
    have := autoMatchesFrom_mem g text a ha
    omega

/-- Every decoration of a line avoids every selection range. -/
theorem lineDecosFrom_sel (hiraF : List Char → List Char)
    (tok : Option (List Char → List KToken)) (style : NStyle)
    (sels : List (Nat × Nat)) (g : Nat) (text : List Char) (lf : Nat) :
    ∀ d ∈ lineDecosFrom hiraF tok style sels g text lf,
      ∀ s ∈ sels, rangesOverlap s.1 s.2 d.fromPos d.toPos = false := by
  intro d hd
  have hd' := (List.perm_insertionSort decoR _).mem_iff.mp hd
  rcases List.mem_append.mp hd' with h | h
  · obtain ⟨m, _, hsome⟩ := List.mem_filterMap.mp h
    exact (manualDecoOf_some sels lf m d hsome).2.2
  · obtain ⟨a, _, hsome⟩ := List.mem_filterMap.mp h
    exact (autoDecoOf_some hiraF tok sels _ _ text lf a d hsome).2.2.1

/-- Every decoration of the line walk starts at or after the running line
offset, with a non-degenerate interval. -/
theorem buildLinesFrom_lb (hiraF : List Char → List Char)
    (tok : Option (List Char → List KToken)) (style : NStyle)
    (sels : List (Nat × Nat)) (g : Nat) :
    ∀ (lines : List (List Char)) (lf : Nat) (fence : Bool),
      ∀ d ∈ buildLinesFrom hiraF tok style sels g lines lf fence,
        lf ≤ d.fromPos ∧ d.fromPos < d.toPos := by
  intro lines
  induction lines with
  | nil => intro lf fence d hd; simp [buildLinesFrom] at hd
  | cons text rest ih =>
    intro lf fence d hd
    simp only [buildLinesFrom] at hd
    rcases List.mem_append.mp hd with h | h
    · split at h
      · simp at h
      · have := lineDecosFrom_bounds hiraF tok style sels g text lf d h
        omega
    · have := ih (lf + text.length + 1) (fenceToggle text fence) d h
      omega

/-- The full decoration walk is sorted and pairwise non-overlapping. -/
theorem buildLinesFrom_ord (hiraF : List Char → List Char)
    (tok : Option (List Char → List KToken)) (style : NStyle)
    (sels : List (Nat × Nat)) (g : Nat) :
    ∀ (lines : List (List Char)) (lf : Nat) (fence : Bool),
      List.Pairwise decoR (buildLinesFrom hiraF tok style sels g lines lf fence) ∧
      List.Pairwise noOv (buildLinesFrom hiraF tok style sels g lines lf fence) := by
  intro lines
  induction lines with
  | nil => intro lf fence; simp [buildLinesFrom]
  | cons text rest ih =>
    intro lf fence
    simp only [buildLinesFrom]
    have hrec := ih (lf + text.length + 1) (fenceToggle text fence)
    have hcross : ∀ a ∈ (if fenceToggle text fence = true then ([] : List Deco)
          else lineDecosFrom hiraF tok style sels g text lf),
        ∀ b ∈ buildLinesFrom hiraF tok style sels g rest
          (lf + text.length + 1) (fenceToggle text fence),
        a.toPos ≤ b.fromPos ∧ a.fromPos < a.toPos := by
      intro a ha b hb
      split at ha
      · simp at ha
      · have h1 := lineDecosFrom_bounds hiraF tok style sels g text lf a ha
        have h2 := buildLinesFrom_lb hiraF tok style sels g rest
          (lf + text.length + 1) (fenceToggle text fence) b hb
        omega
    constructor
    · rw [List.pairwise_append]
      refine ⟨?_, hrec.1, ?_⟩
      · split
        · simp
        · exact lineDecosFrom_sorted hiraF tok style sels g text lf
      · intro a ha b hb
        have := hcross a ha b hb
        unfold decoR
        omega
    · rw [List.pairwise_append]
      refine ⟨?_, hrec.2, ?_⟩
      · split
        · simp
        · exact lineDecosFrom_noOv hiraF tok style sels g text lf
      · intro a ha b hb
        have := hcross a ha b hb
        unfold noOv
        exact rangesOverlap_of_disjoint _ _ _ _ this.1

/-- Every decoration of the line walk avoids every selection range. -/
theorem buildLinesFrom_sel (hiraF : List Char → List Char)
    (tok : Option (List Char → List KToken)) (style : NStyle)
    (sels : List (Nat × Nat)) (g : Nat) :
    ∀ (lines : List (List Char)) (lf : Nat) (fence : Bool),
      ∀ d ∈ buildLinesFrom hiraF tok style sels g lines lf fence,
        ∀ s ∈ sels, rangesOverlap s.1 s.2 d.fromPos d.toPos = false := by
  intro lines
  induction lines with
  | nil => intro lf fence d hd; simp [buildLinesFrom] at hd
  | cons text rest ih =>
    intro lf fence d hd
    simp only [buildLinesFrom] at hd
    rcases List.mem_append.mp hd with h | h
    · split at h
      · simp at h
      · exact lineDecosFrom_sel hiraF tok style sels g text lf d h
    · exact ih (lf + text.length + 1) (fenceToggle text fence) d h

/-- Claim C3: for every document, selection set, notation style, tokenizer
and normalizer, the emitted decoration sequence of a Live Preview pass is
sorted by ascending `from` with ties broken by ascending `to`, and no two
emitted intervals overlap. -/
theorem buildDecorations_sorted_disjoint (hiraF : List Char → List Char)
    (tok : Option (List Char → List KToken)) (style : NStyle)
    (sels : List (Nat × Nat)) (lines : List (List Char)) :
    List.Pairwise decoR (buildDecorations hiraF tok style sels lines) ∧
    List.Pairwise noOv (buildDecorations hiraF tok style sels lines) := by
  unfold buildDecorations buildDecorationsPass
  exact buildLinesFrom_ord hiraF tok style sels 0 lines 0 false

/-- Claim C1 (amended): candidates of either origin overlapping an active
selection range are dropped; Automatic candidates overlapping an inline
backtick span are dropped; a line whose toggled fence flag is set emits no
candidate at all (every emitted decoration then starts on a later line).
The inline-code exclusion is, however, applied only to Automatic
candidates — see the counterexample for an emitted Manual candidate inside
backticks. -/
theorem buildDecorations_exclusion_zones (hiraF : List Char → List Char)
    (tok : Option (List Char → List KToken)) (style : NStyle)
    (sels : List (Nat × Nat)) (lines : List (List Char)) (g : Nat)
    (text : List Char) (lf : Nat) (rest : List (List Char)) (fence : Bool) :
    (∀ d ∈ buildDecorations hiraF tok style sels lines,
      ∀ s ∈ sels, rangesOverlap s.1 s.2 d.fromPos d.toPos = false) ∧
    (∀ d ∈ lineAutoDecosFrom hiraF tok style sels g text lf,
      ∀ b ∈ inlineBacktickRanges text,
        rangesOverlap (b.1 + lf) (b.2 + lf) d.fromPos d.toPos = false) ∧
    (fenceToggle text fence = true →
      ∀ d ∈ buildLinesFrom hiraF tok style sels g (text :: rest) lf fence,
        lf + text.length + 1 ≤ d.fromPos) := by
  refine ⟨?_, ?_, ?_⟩
  · intro d hd s hs
    exact buildLinesFrom_sel hiraF tok style sels 0 lines 0 false d hd s hs
  · intro d hd b hb
    obtain ⟨a, _, hsome⟩ := List.mem_filterMap.mp hd
    exact (autoDecoOf_some hiraF tok sels _ _ text lf a d hsome).2.2.2.2 b hb
  · intro hf d hd
    simp only [buildLinesFrom, hf, if_pos, List.nil_append] at hd
    exact (buildLinesFrom_lb hiraF tok style sels g rest
      (lf + text.length + 1) true d hd).1

/-- Witness for C1 (amended): a concrete pass where a decoration is
emitted and provably avoids the selection. -/
theorem buildDecorations_exclusion_zones_witness :
    (⟨0, 1, [['漢']], [['漢']]⟩ : Deco) ∈
      buildDecorations hiraModel none .curly [(5, 6)] [['漢']] ∧
    rangesOverlap 5 6 0 1 = false :=
  ⟨by decide,
   (buildDecorations_exclusion_zones hiraModel none .curly [(5, 6)] [['漢']]
      0 [] 0 [] false).1 ⟨0, 1, [['漢']], [['漢']]⟩ (by decide) (5, 6) (by decide)⟩

/-- Counterexample to C1 as stated: on the line `` `{漢字|かん|じ}` `` the
manual candidate `[1,10)` overlaps the inline backtick code span `[0,11)`
and is nevertheless emitted. -/
theorem manual_inside_backticks_emitted :
    buildDecorations hiraModel none .curly []
        [[btick, '{', '漢', '字', '|', 'か', 'ん', '|', 'じ', '}', btick]] =
      [⟨1, 10, [['漢'], ['字']], [['か', 'ん'], ['じ']]⟩] ∧
    inlineBacktickRanges
        [btick, '{', '漢', '字', '|', 'か', 'ん', '|', 'じ', '}', btick] =
      [(0, 11)] ∧
    rangesOverlap 0 11 1 10 = true := by
  refine ⟨by decide, by decide, by decide⟩

/-- Claim C2 (amended): an emitted Automatic decoration never overlaps any
manual match range of its line — including the ranges of Manual candidates
that were themselves dropped for overlapping the selection.  An Automatic
candidate overlapping only a dropped Manual candidate is therefore dropped
as well, not emitted. -/
theorem lineAutoDecos_drop_any_manual (hiraF : List Char → List Char)
    (tok : Option (List Char → List KToken)) (style : NStyle)
    (sels : List (Nat × Nat)) (g : Nat) (text : List Char) (lf : Nat) :
    ∀ d ∈ lineAutoDecosFrom hiraF tok style sels g text lf,
      ∀ r ∈ manualRangesAbs style text lf,
        rangesOverlap r.1 r.2 d.fromPos d.toPos = false := by
  intro d hd r hr
  obtain ⟨a, _, hsome⟩ := List.mem_filterMap.mp hd
  exact (autoDecoOf_some hiraF tok sels _ _ text lf a d hsome).2.2.2.1 r hr

/-- Witness for C2 (amended): a concrete line with one manual match and
one emitted automatic decoration, provably clear of the manual range. -/
theorem lineAutoDecos_drop_any_manual_witness :
    (⟨6, 7, [['漢']], [['漢']]⟩ : Deco) ∈
      lineAutoDecosFrom hiraModel none .curly [] 0
        ['{', 'あ', '|', 'か', '}', ' ', '漢'] 0 ∧
    (0, 5) ∈ manualRangesAbs .curly ['{', 'あ', '|', 'か', '}', ' ', '漢'] 0 ∧
    rangesOverlap 0 5 6 7 = false :=
  ⟨by decide, by decide,
   lineAutoDecos_drop_any_manual hiraModel none .curly [] 0
     ['{', 'あ', '|', 'か', '}', ' ', '漢'] 0 ⟨6, 7, [['漢']], [['漢']]⟩
     (by decide) (0, 5) (by decide)⟩

/-- Counterexample to C2 as stated: with the caret at offset 3 inside
`{漢字|かん|じ}` the manual candidate `[0,9)` is dropped for overlapping
the selection, the automatic span `漢字` at `[1,3)` overlaps no selection
and no backtick — only that dropped manual range — yet the pass emits
nothing at all. -/
theorem auto_over_dropped_manual_not_emitted :
    buildDecorations hiraModel none .curly [(3, 3)]
        [['{', '漢', '字', '|', 'か', 'ん', '|', 'じ', '}']] = [] ∧
    autoMatches ['{', '漢', '字', '|', 'か', 'ん', '|', 'じ', '}'] =
      [(1, 2), (4, 2), (7, 1)] ∧
    manualRangesAbs .curly ['{', '漢', '字', '|', 'か', 'ん', '|', 'じ', '}'] 0 =
      [(0, 9)] ∧
    lineManualDecos .curly [(3, 3)] ['{', '漢', '字', '|', 'か', 'ん', '|', 'じ', '}'] 0 =
      [] ∧
    rangesOverlap 3 3 1 3 = false ∧
    inlineBacktickRanges ['{', '漢', '字', '|', 'か', 'ん', '|', 'じ', '}'] = [] := by
  refine ⟨by decide, by decide, by decide, by decide, by decide, by decide⟩

/-- Counterexample to C6 as stated: the Live Preview parser
(`buildDecorations`, one of the claim's two cited sites) does not pad a
count mismatch — for the 3-character base `漢字字` with 2 supplied
readings it emits `readingChunks = [か, じ]`, not `[か, じ, じ]`. -/
theorem livePreview_no_padding :
    buildDecorations hiraModel none .curly []
        [['{', '漢', '字', '字', '|', 'か', '|', 'じ', '}']] =
      [⟨0, 9, [['漢'], ['字'], ['字']], [['か'], ['じ']]⟩] ∧
    ([['か'], ['じ']] : List (List Char)) ≠ [['か'], ['じ'], ['じ']] := by
  refine ⟨by decide, by decide⟩

/-- Claim C6 (amended): the padding behaviour holds in the Reading Mode
parser (`convertFurigana`): with `k > 1` reading segments and `k ≠ n` base
characters, the base splits into `n` single-character chunks, reading `i`
goes to character `i` while both exist, and every remaining character
position receives the last supplied reading.  (The Live Preview parser
instead passes the raw `k` segments unpadded — see the counterexample.) -/
theorem manualChunksRM_pad (base : List Char) (parts : List (List Char))
    (h1 : 1 < parts.length) (h2 : parts.length ≠ base.length) :
    (manualChunksRM base parts).1 = base.map (fun c => [c]) ∧
    (manualChunksRM base parts).2.length = base.length ∧
    (∀ i, i < parts.length → i < base.length →
      (manualChunksRM base parts).2.getD i [] = parts.getD i []) ∧
    (∀ i, parts.length ≤ i → i < base.length →
      (manualChunksRM base parts).2.getD i [] = parts.getLastD []) := by
  unfold manualChunksRM
  rw [if_neg (by omega)]
  rw [if_neg (by simpa using h2)]
  refine ⟨rfl, by simp, ?_, ?_⟩
  · intro i hip hib
    rw [List.getD_eq_getElem?_getD, List.getElem?_map,
      List.getElem?_range (by simpa using hib)]
    simp only [Option.map_some', Option.getD_some]
    rw [List.getD_eq_getElem?_getD, List.getD_eq_getElem?_getD,
      List.getElem?_eq_getElem hip]
    simp
  · intro i hip hib
    rw [List.getD_eq_getElem?_getD, List.getElem?_map,
      List.getElem?_range (by simpa using hib)]
    simp only [Option.map_some', Option.getD_some]
    exact List.getD_eq_default _ _ hip

/-- Witness for C6 (amended): the claim's own example — a 3-character base
with 2 supplied readings — padded with the last reading at position 2. -/
theorem manualChunksRM_pad_witness :
    (manualChunksRM ['漢', '字', '字'] [['か'], ['じ']]).1 =
      [['漢'], ['字'], ['字']] ∧
    (manualChunksRM ['漢', '字', '字'] [['か'], ['じ']]).2.getD 1 [] = ['じ'] ∧
    (manualChunksRM ['漢', '字', '字'] [['か'], ['じ']]).2.getD 2 [] = ['じ'] := by
  have h := manualChunksRM_pad ['漢', '字', '字'] [['か'], ['じ']]
    (by decide) (by decide)
  refine ⟨?_, ?_, ?_⟩
  · rw [h.1]; decide
  · rw [h.2.2.1 1 (by decide) (by decide)]; decide
  · rw [h.2.2.2 2 (by decide) (by decide)]; decide
